import Mathlib

/-!
Shallow embedding of `src/brainkey.cc` from the opmsg repository: the
deterministic brainkey-based EC keypair generator.  Bytes are modelled as
natural numbers `< 256`, byte buffers as `List Nat` (most-significant byte
first, matching `BN_bin2bn`), C `int` parameters as `Int`, and the
process-wide `salt_cnt` counter as an explicit `Nat` threaded through every
operation (stored modulo `2^32`, as the C `unsigned int` wraps).

External collaborators (per the spec's §6) are modelled as capabilities:
the PBKDF2 primitive as a `KDF` structure (an arbitrary deterministic
function together with the facts that a successful call returns exactly the
requested number of bytes, each `< 256`), and the EC library (allocation,
group order, point multiplication, key-object setters, the true-random
fallback generator) as an `ECEnv` structure of arbitrary functions.
-/

namespace Brainkey

/-- ASCII bytes of `"opmsg-brainkey-v1"` (the `init_salt` literal at line 58). -/
def initSaltBytes : List Nat :=
  [111, 112, 109, 115, 103, 45, 98, 114, 97, 105, 110, 107, 101, 121, 45, 118, 49]

/-- One lowercase hex digit, as `%x` formats a nibble: `0`-`9` then `a`-`f`. -/
def hexDigit (n : Nat) : Nat := if n < 10 then 48 + n else 87 + n

/-- ASCII bytes of `%08x` applied to a 32-bit counter value: eight lowercase
hex digits, most significant first.  Each digit extraction already truncates
to the low 32 bits, matching the C `unsigned int` argument. -/
def hex8 (v : Nat) : List Nat :=
  (List.range 8).map (fun i => hexDigit (v / 16 ^ (7 - i) % 16))

/-- The salt string built by `snprintf(saltbuf, ..., "%s.%s.%08x", salt.c_str(),
init_salt, salt_cnt++)` at line 72, as a byte list.  `%s` on `salt.c_str()`
stops at the first NUL byte inside the four-byte salt slice, hence the
`takeWhile`.  (The buffer is 127 bytes and the formatted string is at most 31
bytes, so no truncation occurs.) -/
def saltString (salt4 : List Nat) (cnt : Nat) : List Nat :=
  salt4.takeWhile (fun b => b != 0) ++ 46 :: initSaltBytes ++ 46 :: hex8 cnt

/-- The external `PKCS5_PBKDF2_HMAC` primitive (spec §6): an arbitrary
deterministic derivation function.  A successful call fills exactly the
requested number of output bytes, each a byte value. -/
structure KDF where
  run : List Nat → List Nat → Nat → Nat → Option (List Nat)
  len_eq : ∀ p s it n out, run p s it n = some out → out.length = n
  byte_lt : ∀ p s it n out, run p s it n = some out → ∀ b ∈ out, b < 256

/-- The `for (int have = 0; have < buflen;)` loop of `bk_RAND_bytes`
(lines 70-85).  `L` is the number of bytes still needed (`buflen - have`),
`cnt` the current `salt_cnt` value.  Each iteration formats the salt with the
current counter, post-increments the counter (wrapping as a 32-bit unsigned),
derives a 32-byte block with 10000 PBKDF2-HMAC-SHA256 iterations, and copies
`min L 32` bytes.  The first component is `none` when the C function returns
`0` (derivation failure); the second is the final counter, which has been
advanced even for a failed block since the increment happens at format time.
The `fuel` argument only bounds the recursion; the loop consumes at least one
byte per iteration, so `fuel = L` always suffices. -/
def fillLoop (kdf : KDF) (pass salt4 : List Nat) :
    Nat → Nat → Nat → Option (List Nat) × Nat
  | _, 0, cnt => (some [], cnt)
  | 0, _ + 1, cnt => (none, cnt)
  | fuel + 1, L + 1, cnt =>
    match kdf.run pass (saltString salt4 cnt) 10000 32 with
    | none => (none, (cnt + 1) % 2 ^ 32)
    | some out =>
      match fillLoop kdf pass salt4 fuel (L + 1 - min (L + 1) 32) ((cnt + 1) % 2 ^ 32) with
      | (none, c2) => (none, c2)
      | (some rest, c2) => (some (out.take (min (L + 1) 32) ++ rest), c2)

/-- `bk_RAND_bytes` (lines 53-88).  `bk` is `config::brainkey1` as a byte
list; a configuration shorter than 16 bytes fails immediately (line 55).  The
salt is the first four bytes, the passphrase the rest (lines 65-66).  The
first component is `some buffer` exactly when the C function returns a
positive value (callers treat `<= 0` as failure, and the function returns
`buflen` itself, so a zero-length request also reads as failure). -/
def bk_RAND_bytes (kdf : KDF) (bk : List Nat) (buflen : Nat) (cnt : Nat) :
    Option (List Nat) × Nat :=
  if bk.length < 16 then (none, cnt)
  else if buflen = 0 then (none, cnt)
  else fillLoop kdf (bk.drop 4) (bk.take 4) buflen buflen cnt

/-- The top-bit shaping and unconditional masking of `bk_bnrand`
(lines 118-130), on a most-significant-byte-first buffer.  `top` follows the
C encoding (`-1` = any, `0` = force top bit, positive = force two top bits,
per the `top >= 0` / `if (top)` tests), and `bit = (bits - 1) % 8` is the top
bit index inside byte 0.  The mask `buf[0] &= ~(0xff << (bit+1))` keeps the
low `bit + 1` bits of byte 0, i.e. reduces it modulo `2^(bit+1)`.  The
`none` results model the out-of-bounds accesses the C code would make on an
empty buffer or on a one-byte buffer in the `buf[1] |= 0x80` branch; they
are proved unreachable. -/
def shapeTop (top : Int) (bit : Nat) : List Nat → Option (List Nat)
  | [] => none
  | b0 :: rest =>
    if 0 < top then
      if bit = 0 then
        match rest with
        | [] => none
        | b1 :: rest2 => some (1 :: (b1 ||| 128) :: rest2)
      else some ((b0 ||| 3 <<< (bit - 1)) % 2 ^ (bit + 1) :: rest)
    else if top = 0 then some ((b0 ||| 1 <<< bit) % 2 ^ (bit + 1) :: rest)
    else some (b0 % 2 ^ (bit + 1) :: rest)

/-- `buf[bytes - 1] |= 1` (line 132): set the low bit of the last byte. -/
def orLastByte : List Nat → List Nat
  | [] => []
  | [b] => [b ||| 1]
  | b :: b2 :: rest => b :: orLastByte (b2 :: rest)

/-- `BN_bin2bn`: interpret a most-significant-byte-first buffer as a
nonnegative integer. -/
def bytesToNat (l : List Nat) : Nat := l.foldl (fun a b => a * 256 + b) 0

/-- `bk_bnrand` (lines 91-139).  `bits`, `top`, `bottom` are the C `int`
parameters; the result value is the `BIGNUM` written to `rnd` on success,
paired with the final keystream counter. -/
def bk_bnrand (kdf : KDF) (bk : List Nat) (bits top bottom : Int) (cnt : Nat) :
    Option Nat × Nat :=
  if bits = 0 then
    if top ≠ -1 ∨ bottom ≠ 0 then (none, cnt) else (some 0, cnt)
  else if bits < 0 ∨ (bits = 1 ∧ 0 < top) then (none, cnt)
  else
    let nb := bits.toNat
    let bytes := (nb + 7) / 8
    let bit := (nb - 1) % 8
    match bk_RAND_bytes kdf bk bytes cnt with
    | (none, c2) => (none, c2)
    | (some buf, c2) =>
      match shapeTop top bit buf with
      | none => (none, c2)
      | some shaped =>
        (some (bytesToNat (if bottom ≠ 0 then orLastByte shaped else shaped)), c2)

/-- Fuel-bounded bit counter; `numBitsF f v` equals the bit length of `v`
whenever `v ≤ f`. -/
def numBitsF : Nat → Nat → Nat
  | _, 0 => 0
  | 0, _ + 1 => 0
  | f + 1, v + 1 => numBitsF f ((v + 1) / 2) + 1

/-- `BN_num_bits`: the length of the binary representation of a nonnegative
value (0 for 0). -/
def BN_num_bits (v : Nat) : Nat := numBitsF v v

/-- The in-place adjustment at lines 172-178: subtract `range` from the draw
at most twice, once per `BN_cmp(r, range) >= 0` test. -/
def reduceTwice (range r0 : Nat) : Nat :=
  let r1 := if range ≤ r0 then r0 - range else r0
  if range ≤ r1 then r1 - range else r1

/-- The `range = 100..._2` rejection loop of `bk_bnrand_range`
(lines 162-183).  The argument `count + 1` is the current value of the C
`count` variable, so `if (!--count) return 0;` fires exactly when `count = 0`
here; note the two conditional subtractions happen before the count check,
and the final draw of a run that exhausts the bound is therefore discarded
even if it was in range. -/
def rangeLoopA (kdf : KDF) (bk : List Nat) (range n : Nat) :
    Nat → Nat → Option Nat × Nat
  | 0, cnt => (none, cnt)
  | count + 1, cnt =>
    match bk_bnrand kdf bk ((n : Int) + 1) (-1) 0 cnt with
    | (none, c2) => (none, c2)
    | (some r0, c2) =>
      if count = 0 then (none, c2)
      else if range ≤ reduceTwice range r0 then rangeLoopA kdf bk range n count c2
      else (some (reduceTwice range r0), c2)

/-- The plain rejection loop of `bk_bnrand_range` (lines 185-193), with the
same `count` convention as `rangeLoopA`. -/
def rangeLoopB (kdf : KDF) (bk : List Nat) (range n : Nat) :
    Nat → Nat → Option Nat × Nat
  | 0, cnt => (none, cnt)
  | count + 1, cnt =>
    match bk_bnrand kdf bk (n : Int) (-1) 0 cnt with
    | (none, c2) => (none, c2)
    | (some r, c2) =>
      if count = 0 then (none, c2)
      else if range ≤ r then rangeLoopB kdf bk range n count c2
      else (some r, c2)

/-- `bk_bnrand_range` (lines 143-199).  `range` is the `BIGNUM` argument as
an integer (`BN_is_negative range || BN_is_zero range` is `range ≤ 0`).  For
`n = 2` the C code evaluates `BN_is_bit_set(range, -1)`, which is `0` in
OpenSSL/LibreSSL; Nat subtraction makes `n - 3 = 0` there instead, but the
conjunction already tests bit `n - 2 = 0`, so the branch condition agrees.
Both loops start with `count = 100` (line 146). -/
def bk_bnrand_range (kdf : KDF) (bk : List Nat) (range : Int) (cnt : Nat) :
    Option Nat × Nat :=
  if range ≤ 0 then (none, cnt)
  else
    let rn := range.toNat
    let n := BN_num_bits rn
    if n = 1 then (some 0, cnt)
    else if !rn.testBit (n - 2) && !rn.testBit (n - 3) then
      rangeLoopA kdf bk rn n 100 cnt
    else
      rangeLoopB kdf bk rn n 100 cnt

/-- The caller-visible `EC_KEY` object: optional private scalar and public
point.  The point representation is opaque (an arbitrary `Nat` tag produced
by the external multiplication capability). -/
structure ECKey where
  priv : Option Nat
  pub : Option Nat
deriving DecidableEq

/-- The external EC library capabilities consumed by `EC_KEY_generate_key`
(spec §6): whether the four allocations at lines 208-211 succeed, the
outcome of `EC_GROUP_get_order`, `EC_POINT_mul` as a function from the
scalar to an optional point, the two key-object setters' success predicates,
and the true-random fallback generator `::EC_KEY_generate_key`. -/
structure ECEnv where
  allocOK : Bool
  orderRes : Option Int
  pointMul : Nat → Option Nat
  setPrivOK : Nat → Bool
  setPubOK : Nat → Bool
  truegen : ECKey → Option ECKey

/-- Outcome of a `EC_KEY_generate_key` call: the C return value (`ok`), the
caller-visible key object afterwards, the keystream counter afterwards, and
how many times the true-random fallback generator was invoked. -/
structure GenResult where
  ok : Bool
  key : ECKey
  cnt : Nat
  truegenCalls : Nat
deriving DecidableEq

/-- The zero-rejection loop `do { ... } while (BN_is_zero(priv_key))`
(lines 219-222).  The C loop is unbounded; `fuel` bounds the recursion, with
exhaustion modelled as failure (no claim depends on the exhaustion case). -/
def genLoop (kdf : KDF) (bk : List Nat) (order : Int) :
    Nat → Nat → Option Nat × Nat
  | 0, cnt => (none, cnt)
  | fuel + 1, cnt =>
    match bk_bnrand_range kdf bk order cnt with
    | (none, c2) => (none, c2)
    | (some r, c2) => if r = 0 then genLoop kdf bk order fuel c2 else (some r, c2)

/-- `opmsg::EC_KEY_generate_key` (lines 202-233). -/
def EC_KEY_generate_key (env : ECEnv) (kdf : KDF) (bk : List Nat) (fuel : Nat)
    (key : ECKey) (cnt : Nat) : GenResult :=
  if bk.length < 16 then
    match env.truegen key with
    | none => ⟨false, key, cnt, 1⟩
    | some k2 => ⟨true, k2, cnt, 1⟩
  else if !env.allocOK then ⟨false, key, cnt, 0⟩
  else
    match env.orderRes with
    | none => ⟨false, key, cnt, 0⟩
    | some order =>
      match genLoop kdf bk order fuel cnt with
      | (none, c2) => ⟨false, key, c2, 0⟩
      | (some p, c2) =>
        match env.pointMul p with
        | none => ⟨false, key, c2, 0⟩
        | some q =>
          if !env.setPrivOK p then ⟨false, key, c2, 0⟩
          else if !env.setPubOK q then ⟨false, { key with priv := some p }, c2, 0⟩
          else ⟨true, ⟨some p, some q⟩, c2, 0⟩

/-! ### Concrete capability instances used by witnesses and counterexamples -/

/-- A 16-byte brainkey configuration, the ASCII bytes of `"abcdefghijklmnop"`. -/
def bkW : List Nat :=
  [97, 98, 99, 100, 101, 102, 103, 104, 105, 106, 107, 108, 109, 110, 111, 112]

/-- A brainkey configuration shorter than 16 bytes. -/
def bkShort : List Nat := [97, 98, 99]

/-- A derivation primitive that always outputs zero bytes. -/
def kdfZero : KDF where
  run := fun _ _ _ n => some (List.replicate n 0)
  len_eq := by intro p s it n out h; injection h with h2; subst h2; simp
  byte_lt := by
    intro p s it n out h b hb; injection h with h2; subst h2
    have := List.eq_of_mem_replicate hb; omega

/-- A derivation primitive that always outputs bytes equal to 1. -/
def kdfOne : KDF where
  run := fun _ _ _ n => some (List.replicate n 1)
  len_eq := by intro p s it n out h; injection h with h2; subst h2; simp
  byte_lt := by
    intro p s it n out h b hb; injection h with h2; subst h2
    have := List.eq_of_mem_replicate hb; omega

/-- The keystream block salt of `bkW` at counter value 99. -/
def saltTarget : List Nat := saltString (bkW.take 4) 99

/-- A derivation primitive whose blocks are all-`3` bytes except at the salt
for counter 99, where they are all-zero.  With `range = 3` every 2-bit draw
before counter 99 yields 3 (rejected) and the draw at counter 99 yields 0
(in range). -/
def kdfCtr : KDF where
  run := fun _ s _ n => some (List.replicate n (if s = saltTarget then 0 else 3))
  len_eq := by intro p s it n out h; injection h with h2; subst h2; simp
  byte_lt := by
    intro p s it n out h b hb; injection h with h2; subst h2
    have := List.eq_of_mem_replicate hb; split at this <;> omega

/-- The keystream block salt of `bkW` at counter value 1. -/
def saltFailTarget : List Nat := saltString (bkW.take 4) 1

/-- A derivation primitive that fails exactly on the block salt for counter
value 1 and outputs zero bytes otherwise. -/
def kdfFailAt1 : KDF where
  run := fun _ s _ n =>
    if s = saltFailTarget then none else some (List.replicate n 0)
  len_eq := by
    intro p s it n out h; dsimp only at h; split at h
    · cases h
    · injection h with h2; subst h2; simp
  byte_lt := by
    intro p s it n out h b hb; dsimp only at h; split at h
    · cases h
    · injection h with h2; subst h2
      have := List.eq_of_mem_replicate hb; omega

/-- An EC environment in which every external capability succeeds: a group of
order 3, point multiplication tagging the scalar, both setters succeeding. -/
def envOK : ECEnv where
  allocOK := true
  orderRes := some 3
  pointMul := fun s => some (s + 1000)
  setPrivOK := fun _ => true
  setPubOK := fun _ => true
  truegen := fun _ => some ⟨some 77, some 88⟩

/-- Like `envOK` except that the public-key setter fails. -/
def envPubFail : ECEnv where
  allocOK := true
  orderRes := some 3
  pointMul := fun s => some (s + 1000)
  setPrivOK := fun _ => true
  setPubOK := fun _ => false
  truegen := fun _ => some ⟨some 77, some 88⟩

/-! ### Reference formulations for the amended rejection-loop claim -/

/-- One draw of the plain rejection loop: an `n`-bit top/bottom-free sample. -/
def drawB (kdf : KDF) (bk : List Nat) (n cnt : Nat) : Option Nat × Nat :=
  bk_bnrand kdf bk (n : Int) (-1) 0 cnt

/-- One draw of the shifted rejection loop: an `(n+1)`-bit sample with the
two conditional subtractions of `range` applied. -/
def drawA (kdf : KDF) (bk : List Nat) (range n cnt : Nat) : Option Nat × Nat :=
  match bk_bnrand kdf bk ((n : Int) + 1) (-1) 0 cnt with
  | (none, c2) => (none, c2)
  | (some r0, c2) => (some (reduceTwice range r0), c2)

/-- Reference formulation of the amended bound on the plain rejection loop:
up to `k` draws may be accepted; when all `k` accepting opportunities are
spent without an in-range draw, one further draw is made and discarded
(advancing the keystream) and the loop fails.  `rangeLoopB` with
`count = k + 1` is proved equal to this. -/
def specLoopB (kdf : KDF) (bk : List Nat) (range n : Nat) :
    Nat → Nat → Option Nat × Nat
  | 0, cnt => (none, (drawB kdf bk n cnt).2)
  | k + 1, cnt =>
    match drawB kdf bk n cnt with
    | (none, c2) => (none, c2)
    | (some r, c2) =>
      if range ≤ r then specLoopB kdf bk range n k c2 else (some r, c2)

/-- Reference formulation of the amended bound on the shifted rejection
loop, mirroring `specLoopB` with the adjusted draw. -/
def specLoopA (kdf : KDF) (bk : List Nat) (range n : Nat) :
    Nat → Nat → Option Nat × Nat
  | 0, cnt => (none, (drawA kdf bk range n cnt).2)
  | k + 1, cnt =>
    match drawA kdf bk range n cnt with
    | (none, c2) => (none, c2)
    | (some r, c2) =>
      if range ≤ r then specLoopA kdf bk range n k c2 else (some r, c2)

/-! ### Bitwise helper lemmas -/

/-- Bitwise or can only set bits: the left operand is a lower bound. -/
theorem le_or_left (a b : Nat) : a ≤ a ||| b := by
  have h : a &&& (a ||| b) = a := by
    apply Nat.eq_of_testBit_eq
    intro i
    simp only [Nat.testBit_and, Nat.testBit_or]
    cases a.testBit i <;> cases b.testBit i <;> rfl
  calc a = a &&& (a ||| b) := h.symm
    _ ≤ a ||| b := Nat.and_le_right

/-- Bitwise or can only set bits: the right operand is a lower bound. -/
theorem le_or_right (a b : Nat) : b ≤ a ||| b := by
  rw [Nat.lor_comm]; exact le_or_left b a

/-- Truncation to the low `n` bits distributes over bitwise or. -/
theorem or_mod_two_pow (a b n : Nat) :
    (a ||| b) % 2 ^ n = a % 2 ^ n ||| b % 2 ^ n := by
  apply Nat.eq_of_testBit_eq
  intro i
  simp only [Nat.testBit_mod_two_pow, Nat.testBit_or]
  by_cases h : i < n <;> simp [h]

/-! ### Byte buffer lemmas -/

theorem bytesToNat_go (l : List Nat) :
    ∀ a, l.foldl (fun x b => x * 256 + b) a = a * 256 ^ l.length + bytesToNat l := by
  induction l with
  | nil => intro a; simp [bytesToNat]
  | cons b t ih =>
    intro a
    simp only [bytesToNat, List.foldl_cons, List.length_cons]
    rw [ih (a * 256 + b), ih (0 * 256 + b)]
    ring

theorem bytesToNat_cons (b : Nat) (t : List Nat) :
    bytesToNat (b :: t) = b * 256 ^ t.length + bytesToNat t := by
  show (b :: t).foldl (fun x y => x * 256 + y) 0 = _
  simp only [List.foldl_cons]
  rw [bytesToNat_go]
  simp

theorem bytesToNat_lt (l : List Nat) (h : ∀ x ∈ l, x < 256) :
    bytesToNat l < 256 ^ l.length := by
  induction l with
  | nil => simp [bytesToNat]
  | cons b t ih =>
    rw [bytesToNat_cons]
    have hb : b < 256 := h b (by simp)
    have ht : bytesToNat t < 256 ^ t.length := ih (fun x hx => h x (by simp [hx]))
    have h1 : (b + 1) * 256 ^ t.length = b * 256 ^ t.length + 256 ^ t.length :=
      Nat.add_mul b 1 _ ▸ by ring
    have h2 : (b + 1) * 256 ^ t.length ≤ 256 * 256 ^ t.length :=
      Nat.mul_le_mul_right _ (by omega)
    have h3 : 256 * 256 ^ t.length = 256 ^ (t.length + 1) := (pow_succ 256 _).symm ▸ by ring
    simp only [List.length_cons]
    omega

/-- A lower bound on the head byte gives a lower bound on the value. -/
theorem bytesToNat_head_ge (b : Nat) (t : List Nat) (m : Nat) (hm : m ≤ b) :
    m * 256 ^ t.length ≤ bytesToNat (b :: t) := by
  rw [bytesToNat_cons]
  have := Nat.mul_le_mul_right (256 ^ t.length) hm
  omega

/-- An upper bound on the head byte, with byte-valued remaining entries,
bounds the value. -/
theorem bytesToNat_head_lt (b : Nat) (t : List Nat) (m : Nat) (hm : b < m)
    (ht : ∀ x ∈ t, x < 256) : bytesToNat (b :: t) < m * 256 ^ t.length := by
  rw [bytesToNat_cons]
  have h1 : bytesToNat t < 256 ^ t.length := bytesToNat_lt t ht
  have h2 : (b + 1) * 256 ^ t.length ≤ m * 256 ^ t.length :=
    Nat.mul_le_mul_right _ (by omega)
  have h3 : (b + 1) * 256 ^ t.length = b * 256 ^ t.length + 256 ^ t.length :=
    Nat.add_mul b 1 _ ▸ by ring
  omega

/-! ### Properties of `orLastByte` -/

theorem orLastByte_cons_cons (a b : Nat) (l : List Nat) :
    orLastByte (a :: b :: l) = a :: orLastByte (b :: l) := rfl

theorem orLastByte_length (l : List Nat) : (orLastByte l).length = l.length := by
  induction l with
  | nil => rfl
  | cons a t ih =>
    cases t with
    | nil => rfl
    | cons b t2 => rw [orLastByte_cons_cons]; simpa using ih

theorem orLastByte_byte_lt (l : List Nat) (h : ∀ x ∈ l, x < 256) :
    ∀ x ∈ orLastByte l, x < 256 := by
  induction l with
  | nil => simp [orLastByte]
  | cons a t ih =>
    cases t with
    | nil =>
      intro x hx
      simp only [orLastByte, List.mem_singleton] at hx
      subst hx
      exact Nat.or_lt_two_pow (x := a) (n := 8) (h a (by simp)) (by omega)
    | cons b t2 =>
      intro x hx
      rw [orLastByte_cons_cons] at hx
      rcases List.mem_cons.mp hx with rfl | hx2
      · exact h x (by simp)
      · exact ih (fun y hy => h y (by simp [hy])) x hx2

/-! ### Keystream fill lemmas -/

/-- A successful fill returns exactly the requested number of bytes, each a
byte value. -/
theorem fillLoop_some (kdf : KDF) (pass salt4 : List Nat) :
    ∀ fuel L cnt out c2, L ≤ fuel →
      fillLoop kdf pass salt4 fuel L cnt = (some out, c2) →
      out.length = L ∧ ∀ b ∈ out, b < 256 := by
  intro fuel
  induction fuel with
  | zero =>
    intro L cnt out c2 hL h
    obtain rfl : L = 0 := by omega
    simp only [fillLoop, Prod.mk.injEq, Option.some.injEq] at h
    obtain ⟨rfl, rfl⟩ := h
    exact ⟨rfl, by simp⟩
  | succ f ih =>
    intro L cnt out c2 hL h
    cases L with
    | zero =>
      simp only [fillLoop, Prod.mk.injEq, Option.some.injEq] at h
      obtain ⟨rfl, rfl⟩ := h
      exact ⟨rfl, by simp⟩
    | succ L0 =>
      simp only [fillLoop] at h
      cases hk : kdf.run pass (saltString salt4 cnt) 10000 32 with
      | none => rw [hk] at h; simp at h
      | some blk =>
        rw [hk] at h
        cases hr : fillLoop kdf pass salt4 f (L0 + 1 - min (L0 + 1) 32) ((cnt + 1) % 2 ^ 32) with
        | mk o cr =>
          rw [hr] at h
          cases o with
          | none => simp at h
          | some rest =>
            simp only [Prod.mk.injEq, Option.some.injEq] at h
            obtain ⟨rfl, rfl⟩ := h
            have hblk : blk.length = 32 := kdf.len_eq _ _ _ _ _ hk
            have hrec := ih (L0 + 1 - min (L0 + 1) 32) ((cnt + 1) % 2 ^ 32) rest cr
              (by omega) hr
            constructor
            · rw [List.length_append, List.length_take, hblk, hrec.1]
              omega
            · intro b hb
              rcases List.mem_append.mp hb with h1 | h2
              · exact kdf.byte_lt _ _ _ _ _ hk b (List.mem_of_mem_take h1)
              · exact hrec.2 b h2

/-- The block structure of a successful fill (claim C1 core): the final
counter advanced by exactly `⌈L/32⌉`, and the bytes at offset `32*i` are the
(possibly truncated) PBKDF2 block derived with the salt formatted from
counter value `cnt + i`. -/
theorem fillLoop_blocks (kdf : KDF) (pass salt4 : List Nat) :
    ∀ fuel L cnt out c2, 1 ≤ L → L ≤ fuel → cnt + (L + 31) / 32 < 2 ^ 32 →
      fillLoop kdf pass salt4 fuel L cnt = (some out, c2) →
      c2 = cnt + (L + 31) / 32 ∧
      ∀ i < (L + 31) / 32, ∃ blk,
        kdf.run pass (saltString salt4 (cnt + i)) 10000 32 = some blk ∧
        (out.drop (32 * i)).take 32 = blk.take (L - 32 * i) := by
  intro fuel
  induction fuel with
  | zero => intro L cnt out c2 h1 hL; omega
  | succ f ih =>
    intro L cnt out c2 h1 hL hw h
    cases L with
    | zero => omega
    | succ L0 =>
      simp only [fillLoop] at h
      cases hk : kdf.run pass (saltString salt4 cnt) 10000 32 with
      | none => rw [hk] at h; simp at h
      | some blk =>
        rw [hk] at h
        have hblk : blk.length = 32 := kdf.len_eq _ _ _ _ _ hk
        by_cases hsmall : L0 + 1 ≤ 32
        · -- single (possibly truncated) final block
          have hmin : min (L0 + 1) 32 = L0 + 1 := by omega
          have hone : (L0 + 1 + 31) / 32 = 1 := by omega
          rw [hmin] at h
          simp only [Nat.sub_self] at h
          have hmod : (cnt + 1) % 2 ^ 32 = cnt + 1 := Nat.mod_eq_of_lt (by omega)
          simp only [fillLoop, hmod, Prod.mk.injEq, Option.some.injEq] at h
          obtain ⟨rfl, rfl⟩ := h
          refine ⟨by omega, ?_⟩
          intro i hi
          obtain rfl : i = 0 := by omega
          refine ⟨blk, by simpa using hk, ?_⟩
          simp only [Nat.mul_zero, List.drop_zero, List.append_nil, Nat.sub_zero]
          rw [List.take_take]
          congr 1
          omega
        · -- a full 32-byte block, then the rest
          have hmin : min (L0 + 1) 32 = 32 := by omega
          rw [hmin] at h
          have hmod : (cnt + 1) % 2 ^ 32 = cnt + 1 := Nat.mod_eq_of_lt (by omega)
          rw [hmod] at h
          cases hr : fillLoop kdf pass salt4 f (L0 + 1 - 32) (cnt + 1) with
          | mk o cr =>
            rw [hr] at h
            cases o with
            | none => simp at h
            | some rest =>
              simp only [Prod.mk.injEq, Option.some.injEq] at h
              obtain ⟨rfl, rfl⟩ := h
              have hdiv : (L0 + 1 + 31) / 32 = (L0 + 1 - 32 + 31) / 32 + 1 := by omega
              have hrec := ih (L0 + 1 - 32) (cnt + 1) rest cr (by omega) (by omega)
                (by omega) hr
              have htk : blk.take 32 = blk := List.take_of_length_le (by omega)
              constructor
              · omega
              · intro i hi
                cases i with
                | zero =>
                  refine ⟨blk, by simpa using hk, ?_⟩
                  simp only [Nat.mul_zero, List.drop_zero, Nat.sub_zero]
                  rw [List.take_left' (by rw [List.length_take]; omega)]
                  rw [htk, List.take_of_length_le (by omega)]
                | succ j =>
                  obtain ⟨blk2, hb2, he2⟩ := hrec.2 j (by omega)
                  refine ⟨blk2, ?_, ?_⟩
                  · have : cnt + 1 + j = cnt + (j + 1) := by omega
                    rwa [this] at hb2
                  · have hsplit : 32 * (j + 1) = 32 + 32 * j := by ring
                    rw [hsplit, ← List.drop_drop,
                      List.drop_left' (by rw [List.length_take]; omega),
                      show L0 + 1 - (32 + 32 * j) = L0 + 1 - 32 - 32 * j from by omega]
                    exact he2

/-- The failure shape of a fill (claim C10 core): if the derivation primitive
succeeds on the salts for counters `cnt..cnt+k-1` and fails on the salt for
counter `cnt + k` (a block the fill actually requests), the fill fails with
the counter already advanced past the failed block. -/
theorem fillLoop_fail (kdf : KDF) (pass salt4 : List Nat) :
    ∀ k fuel L cnt, 1 ≤ L → L ≤ fuel → k < (L + 31) / 32 → cnt + k + 1 < 2 ^ 32 →
      (∀ j < k, ∃ blk, kdf.run pass (saltString salt4 (cnt + j)) 10000 32 = some blk) →
      kdf.run pass (saltString salt4 (cnt + k)) 10000 32 = none →
      fillLoop kdf pass salt4 fuel L cnt = (none, cnt + k + 1) := by
  intro k
  induction k with
  | zero =>
    intro fuel L cnt h1 hL hk hw _ hfail
    cases fuel with
    | zero => omega
    | succ f =>
      cases L with
      | zero => omega
      | succ L0 =>
        simp only [Nat.add_zero] at hfail
        simp only [fillLoop, hfail]
        rw [Nat.mod_eq_of_lt (by omega)]
  | succ k0 ih =>
    intro fuel L cnt h1 hL hk hw hok hfail
    cases fuel with
    | zero => omega
    | succ f =>
      cases L with
      | zero => omega
      | succ L0 =>
        have hbig : 32 < L0 + 1 := by
          by_contra hc
          have : (L0 + 1 + 31) / 32 = 1 := by omega
          omega
        obtain ⟨blk0, hb0⟩ := hok 0 (by omega)
        rw [show cnt + 0 = cnt from rfl] at hb0
        simp only [fillLoop]
        rw [hb0]
        have hmin : min (L0 + 1) 32 = 32 := by omega
        rw [hmin, Nat.mod_eq_of_lt (show cnt + 1 < 2 ^ 32 by omega)]
        have hrec := ih f (L0 + 1 - 32) (cnt + 1) (by omega) (by omega) (by omega)
          (by omega)
          (fun j hj => by
            have := hok (j + 1) (by omega)
            rwa [show cnt + (j + 1) = cnt + 1 + j by omega] at this)
          (by rwa [show cnt + 1 + k0 = cnt + (k0 + 1) by omega])
        rw [hrec]
        dsimp only
        rw [show cnt + 1 + k0 + 1 = cnt + (k0 + 1) + 1 from by omega]

/-- A successful `bk_RAND_bytes` call implies a long-enough brainkey and a
positive request, and returns exactly the requested bytes, each `< 256`. -/
theorem bk_RAND_bytes_some (kdf : KDF) (bk : List Nat) (buflen cnt : Nat)
    (out : List Nat) (c2 : Nat) (h : bk_RAND_bytes kdf bk buflen cnt = (some out, c2)) :
    16 ≤ bk.length ∧ 1 ≤ buflen ∧ out.length = buflen ∧ ∀ b ∈ out, b < 256 := by
  unfold bk_RAND_bytes at h
  split at h
  · simp at h
  · split at h
    · simp at h
    · have := fillLoop_some kdf (bk.drop 4) (bk.take 4) buflen buflen cnt out c2
        (Nat.le_refl _) h
      refine ⟨by omega, by omega, this.1, this.2⟩

/-! ### Shaped buffer bounds -/

theorem pow256 (x : Nat) : (256 : Nat) ^ x = 2 ^ (8 * x) := by
  rw [show (256 : Nat) = 2 ^ 8 from rfl, ← pow_mul]

/-- Value bounds for the final buffer of `bk_bnrand`: a buffer whose head is
bounded by `2^k` from above and by `m` from below, followed by byte values,
has a value in `[m * 256^t.length, 2^k * 256^t.length)`; this survives the
optional bottom-bit forcing. -/
theorem finalBuf_bounds (h0 : Nat) (t : List Nat) (k m : Nat) (w : List Nat)
    (hw : w = h0 :: t ∨ w = orLastByte (h0 :: t))
    (hh : h0 < 2 ^ k) (hk : 1 ≤ k) (hm : m ≤ h0) (ht : ∀ x ∈ t, x < 256) :
    w.length = t.length + 1 ∧ m * 256 ^ t.length ≤ bytesToNat w ∧
      bytesToNat w < 2 ^ k * 256 ^ t.length := by
  rcases hw with rfl | rfl
  · exact ⟨by simp, bytesToNat_head_ge h0 t m hm, bytesToNat_head_lt h0 t (2 ^ k) hh ht⟩
  · cases t with
    | nil =>
      have hval : bytesToNat (orLastByte [h0]) = h0 ||| 1 := by
        simp [orLastByte, bytesToNat_cons, bytesToNat]
      refine ⟨rfl, ?_, ?_⟩
      · simpa [hval] using le_trans hm (le_or_left h0 1)
      · have h2 : h0 ||| 1 < 2 ^ k :=
          Nat.or_lt_two_pow hh (Nat.one_lt_two_pow (by omega))
        simpa [hval] using h2
    | cons b t2 =>
      rw [orLastByte_cons_cons]
      have hlen2 : (orLastByte (b :: t2)).length = (b :: t2).length :=
        orLastByte_length _
      refine ⟨by simp [hlen2], ?_, ?_⟩
      · have := bytesToNat_head_ge h0 (orLastByte (b :: t2)) m hm
        rwa [hlen2] at this
      · have := bytesToNat_head_lt h0 (orLastByte (b :: t2)) (2 ^ k) hh
          (orLastByte_byte_lt _ ht)
        rwa [hlen2] at this

/-- The central value bounds of `bk_bnrand` for `bits ≥ 1`: the masked result
is below `2^bits`; forcing the top bit puts it in the top half, and forcing
the two top bits (legal only for `bits ≥ 2`) in the top quarter's upper part. -/
theorem bk_bnrand_bounds (kdf : KDF) (bk : List Nat) (nb : Nat) (top bottom : Int)
    (cnt : Nat) (v c2 : Nat) (h1 : 1 ≤ nb)
    (h : bk_bnrand kdf bk (nb : Int) top bottom cnt = (some v, c2)) :
    v < 2 ^ nb ∧ (top = 0 → 2 ^ (nb - 1) ≤ v) ∧
      (0 < top → 2 ^ (nb - 1) ≤ v ∧ 3 * 2 ^ (nb - 2) ≤ v) := by
  simp only [bk_bnrand, Int.toNat_ofNat] at h
  rw [if_neg (by exact_mod_cast by omega : ¬((nb : Int) = 0))] at h
  by_cases hc : ((nb : Int) < 0 ∨ ((nb : Int) = 1 ∧ 0 < top))
  · rw [if_pos hc] at h; simp at h
  · rw [if_neg hc] at h
    have hne1 : 0 < top → nb ≠ 1 := by
      intro ht he
      exact hc (Or.inr ⟨by exact_mod_cast he, ht⟩)
    cases hrb : bk_RAND_bytes kdf bk ((nb + 7) / 8) cnt with
    | mk ob crb =>
      rw [hrb] at h
      cases ob with
      | none => simp at h
      | some buf =>
        obtain ⟨h16, hpos, hlen, hbuf⟩ := bk_RAND_bytes_some _ _ _ _ _ _ hrb
        dsimp only at h
        cases hsh : shapeTop top ((nb - 1) % 8) buf with
        | none => rw [hsh] at h; simp at h
        | some shaped =>
          rw [hsh] at h
          simp only [Prod.mk.injEq, Option.some.injEq] at h
          obtain ⟨hv, hc2⟩ := h
          subst hv
          subst hc2
          cases buf with
          | nil => simp at hlen; omega
          | cons b0 rest =>
            have hrest : ∀ x ∈ rest, x < 256 := fun x hx => hbuf x (by simp [hx])
            simp only [shapeTop] at hsh
            by_cases htop : 0 < top
            · rw [if_pos htop] at hsh
              by_cases hbit : (nb - 1) % 8 = 0
              · -- two top bits forced, top bit index 0: byte 1 carries bit 7
                rw [if_pos hbit] at hsh
                cases rest with
                | nil => simp at hsh
                | cons b1 rest2 =>
                  simp only [Option.some.injEq] at hsh
                  subst hsh
                  have hrest2 : ∀ x ∈ rest2, x < 256 := fun x hx => hrest x (by simp [hx])
                  have hnb9 : nb = 8 * rest2.length + 9 := by
                    simp only [List.length_cons] at hlen
                    have := hne1 htop
                    omega
                  rw [show (if bottom ≠ 0 then orLastByte (1 :: (b1 ||| 128) :: rest2)
                        else 1 :: (b1 ||| 128) :: rest2) =
                      1 :: (if bottom ≠ 0 then orLastByte ((b1 ||| 128) :: rest2)
                        else (b1 ||| 128) :: rest2) from by split <;> rfl]
                  obtain ⟨hwlen, hwlo, hwhi⟩ :=
                    finalBuf_bounds (b1 ||| 128) rest2 8 128
                      (if bottom ≠ 0 then orLastByte ((b1 ||| 128) :: rest2)
                        else (b1 ||| 128) :: rest2)
                      (by split
                          · exact Or.inr rfl
                          · exact Or.inl rfl)
                      (Nat.or_lt_two_pow (hbuf b1 (by simp)) (by omega))
                      (by omega) (le_or_right b1 128) hrest2
                  rw [bytesToNat_cons, hwlen]
                  set R := rest2.length with hRdef
                  set wv := bytesToNat (if bottom ≠ 0 then
                    orLastByte ((b1 ||| 128) :: rest2) else (b1 ||| 128) :: rest2)
                    with hwv
                  have e0 : (256 : Nat) ^ R = 2 ^ (8 * R) := pow256 R
                  have e1 : (256 : Nat) ^ (R + 1) = 2 ^ (8 * R + 7) * 2 := by
                    rw [pow256, show 8 * (R + 1) = (8 * R + 7) + 1 from by omega,
                      pow_succ]
                  have e2 : (128 : Nat) * 256 ^ R = 2 ^ (8 * R + 7) := by
                    rw [e0, show (128 : Nat) = 2 ^ 7 from rfl, ← pow_add]
                    congr 1
                    omega
                  have e3 : (2 : Nat) ^ 8 * 256 ^ R = 2 ^ (8 * R + 7) * 2 := by
                    rw [e0, ← pow_add, show 8 + 8 * R = (8 * R + 7) + 1 from by omega,
                      pow_succ]
                  have e4 : (2 : Nat) ^ nb = 2 ^ (8 * R + 7) * 4 := by
                    rw [hnb9, show 8 * R + 9 = (8 * R + 7) + 2 from by omega, pow_add]
                    norm_num
                  have e5 : (2 : Nat) ^ (nb - 1) = 2 ^ (8 * R + 7) * 2 := by
                    rw [show nb - 1 = (8 * R + 7) + 1 from by omega, pow_succ]
                  have e6 : (2 : Nat) ^ (nb - 2) = 2 ^ (8 * R + 7) := by
                    congr 1
                    omega
                  rw [e2] at hwlo
                  rw [e3] at hwhi
                  refine ⟨?_, fun ht0 => absurd ht0 (by omega), fun _ => ⟨?_, ?_⟩⟩
                  · rw [one_mul, e1, e4]
                    omega
                  · rw [one_mul, e1, e5]
                    omega
                  · rw [one_mul, e1, e6]
                    omega
              · -- two top bits forced within byte 0
                rw [if_neg hbit] at hsh
                simp only [Option.some.injEq] at hsh
                subst hsh
                set bit := (nb - 1) % 8 with hbitdef
                have hkey : nb - 1 = 8 * ((nb + 7) / 8 - 1) + bit := by omega
                have hR : rest.length = (nb + 7) / 8 - 1 := by
                  simp only [List.length_cons] at hlen
                  omega
                set R := rest.length with hRdef
                have hmval : (3 : Nat) <<< (bit - 1) = 3 * 2 ^ (bit - 1) :=
                  Nat.shiftLeft_eq 3 (bit - 1)
                have hp2 : (2 : Nat) ^ (bit + 1) = 2 ^ (bit - 1) * 4 := by
                  rw [show bit + 1 = (bit - 1) + 2 from by omega, pow_add]
                  norm_num
                have hmlt : 3 * 2 ^ (bit - 1) < 2 ^ (bit + 1) := by
                  have := Nat.two_pow_pos (bit - 1)
                  omega
                have hhead : (b0 ||| 3 <<< (bit - 1)) % 2 ^ (bit + 1) =
                    b0 % 2 ^ (bit + 1) ||| 3 * 2 ^ (bit - 1) := by
                  rw [hmval, or_mod_two_pow, Nat.mod_eq_of_lt hmlt]
                rw [hhead]
                obtain ⟨hwlen, hwlo, hwhi⟩ :=
                  finalBuf_bounds (b0 % 2 ^ (bit + 1) ||| 3 * 2 ^ (bit - 1)) rest
                    (bit + 1) (3 * 2 ^ (bit - 1))
                    (if bottom ≠ 0 then
                      orLastByte ((b0 % 2 ^ (bit + 1) ||| 3 * 2 ^ (bit - 1)) :: rest)
                    else (b0 % 2 ^ (bit + 1) ||| 3 * 2 ^ (bit - 1)) :: rest)
                    (by split
                        · exact Or.inr rfl
                        · exact Or.inl rfl)
                    (Nat.or_lt_two_pow (Nat.mod_lt _ (Nat.two_pow_pos _)) hmlt)
                    (by omega) (le_or_right _ _) hrest
                have e0 : (256 : Nat) ^ R = 2 ^ (8 * R) := pow256 R
                have e1 : 3 * 2 ^ (bit - 1) * 256 ^ R = 3 * 2 ^ (nb - 2) := by
                  rw [e0, mul_assoc, ← pow_add]
                  congr 2
                  omega
                have e2 : (2 : Nat) ^ (bit + 1) * 256 ^ R = 2 ^ nb := by
                  rw [e0, ← pow_add]
                  congr 1
                  omega
                have e3 : (2 : Nat) ^ (nb - 1) = 2 ^ (nb - 2) * 2 := by
                  rw [show nb - 1 = (nb - 2) + 1 from by omega, pow_succ]
                have hpos2 : 0 < (2 : Nat) ^ (nb - 2) := Nat.two_pow_pos _
                rw [e1] at hwlo
                rw [e2] at hwhi
                exact ⟨hwhi, fun ht0 => absurd ht0 (by omega),
                  fun _ => ⟨by omega, by omega⟩⟩
            · rw [if_neg htop] at hsh
              by_cases htop0 : top = 0
              · -- top bit forced
                rw [if_pos htop0] at hsh
                simp only [Option.some.injEq] at hsh
                subst hsh
                set bit := (nb - 1) % 8 with hbitdef
                have hR : rest.length = (nb + 7) / 8 - 1 := by
                  simp only [List.length_cons] at hlen
                  omega
                set R := rest.length with hRdef
                have hmlt : (2 : Nat) ^ bit < 2 ^ (bit + 1) := by
                  rw [pow_succ]
                  have := Nat.two_pow_pos bit
                  omega
                have hhead : (b0 ||| 1 <<< bit) % 2 ^ (bit + 1) =
                    b0 % 2 ^ (bit + 1) ||| 2 ^ bit := by
                  rw [Nat.one_shiftLeft, or_mod_two_pow, Nat.mod_eq_of_lt hmlt]
                rw [hhead]
                obtain ⟨hwlen, hwlo, hwhi⟩ :=
                  finalBuf_bounds (b0 % 2 ^ (bit + 1) ||| 2 ^ bit) rest
                    (bit + 1) (2 ^ bit)
                    (if bottom ≠ 0 then
                      orLastByte ((b0 % 2 ^ (bit + 1) ||| 2 ^ bit) :: rest)
                    else (b0 % 2 ^ (bit + 1) ||| 2 ^ bit) :: rest)
                    (by split
                        · exact Or.inr rfl
                        · exact Or.inl rfl)
                    (Nat.or_lt_two_pow (Nat.mod_lt _ (Nat.two_pow_pos _)) hmlt)
                    (by omega) (le_or_right _ _) hrest
                have e0 : (256 : Nat) ^ R = 2 ^ (8 * R) := pow256 R
                have e1 : (2 : Nat) ^ bit * 256 ^ R = 2 ^ (nb - 1) := by
                  rw [e0, ← pow_add]
                  congr 1
                  omega
                have e2 : (2 : Nat) ^ (bit + 1) * 256 ^ R = 2 ^ nb := by
                  rw [e0, ← pow_add]
                  congr 1
                  omega
                rw [e1] at hwlo
                rw [e2] at hwhi
                exact ⟨hwhi, fun _ => hwlo, fun ht => absurd ht htop⟩
              · -- no forcing: mask only
                rw [if_neg htop0] at hsh
                simp only [Option.some.injEq] at hsh
                subst hsh
                set bit := (nb - 1) % 8 with hbitdef
                have hR : rest.length = (nb + 7) / 8 - 1 := by
                  simp only [List.length_cons] at hlen
                  omega
                set R := rest.length with hRdef
                obtain ⟨hwlen, hwlo, hwhi⟩ :=
                  finalBuf_bounds (b0 % 2 ^ (bit + 1)) rest (bit + 1) 0
                    (if bottom ≠ 0 then orLastByte ((b0 % 2 ^ (bit + 1)) :: rest)
                    else (b0 % 2 ^ (bit + 1)) :: rest)
                    (by split
                        · exact Or.inr rfl
                        · exact Or.inl rfl)
                    (Nat.mod_lt _ (Nat.two_pow_pos _))
                    (by omega) (Nat.zero_le _) hrest
                have e0 : (256 : Nat) ^ R = 2 ^ (8 * R) := pow256 R
                have e2 : (2 : Nat) ^ (bit + 1) * 256 ^ R = 2 ^ nb := by
                  rw [e0, ← pow_add]
                  congr 1
                  omega
                rw [e2] at hwhi
                exact ⟨hwhi, fun ht => absurd ht htop0, fun ht => absurd ht htop⟩

/-! ### Bit-length lemmas -/

theorem numBitsF_zero (f : Nat) : numBitsF f 0 = 0 := by cases f <;> rfl

theorem numBitsF_congr : ∀ v f g, v ≤ f → v ≤ g → numBitsF f v = numBitsF g v := by
  intro v
  induction v using Nat.strong_induction_on with
  | _ v ih =>
    match v with
    | 0 => intro f g _ _; rw [numBitsF_zero, numBitsF_zero]
    | v' + 1 =>
      intro f g hf hg
      cases f with
      | zero => omega
      | succ f2 =>
        cases g with
        | zero => omega
        | succ g2 =>
          show numBitsF f2 ((v' + 1) / 2) + 1 = numBitsF g2 ((v' + 1) / 2) + 1
          rw [ih ((v' + 1) / 2) (by omega) f2 g2 (by omega) (by omega)]

theorem numBits_rec (v : Nat) (h : 1 ≤ v) :
    BN_num_bits v = BN_num_bits (v / 2) + 1 := by
  cases v with
  | zero => omega
  | succ v' =>
    show numBitsF v' ((v' + 1) / 2) + 1 = numBitsF ((v' + 1) / 2) ((v' + 1) / 2) + 1
    rw [numBitsF_congr ((v' + 1) / 2) v' ((v' + 1) / 2) (by omega) (Nat.le_refl _)]

theorem numBits_pos (v : Nat) (h : 1 ≤ v) : 1 ≤ BN_num_bits v := by
  rw [numBits_rec v h]
  omega

/-- `BN_num_bits` computes the exact bit length: for positive `v`,
`2^(n-1) ≤ v < 2^n` where `n = BN_num_bits v`. -/
theorem numBits_bounds : ∀ v, 1 ≤ v →
    2 ^ (BN_num_bits v - 1) ≤ v ∧ v < 2 ^ BN_num_bits v := by
  intro v
  induction v using Nat.strong_induction_on with
  | _ v ih =>
    intro h1
    by_cases hv : v = 1
    · subst hv
      decide
    · have h2 : 2 ≤ v := by omega
      have hhalf : 1 ≤ v / 2 := by omega
      obtain ⟨ihlo, ihhi⟩ := ih (v / 2) (by omega) hhalf
      have hm : 1 ≤ BN_num_bits (v / 2) := numBits_pos _ hhalf
      rw [numBits_rec v h1]
      set m := BN_num_bits (v / 2) with hmdef
      have p1 : (2 : Nat) ^ (m + 1 - 1) = 2 ^ m := by congr 1
      have p2 : (2 : Nat) ^ (m + 1) = 2 ^ m * 2 := pow_succ 2 m
      have p3 : (2 : Nat) ^ m = 2 ^ (m - 1) * 2 := by
        rw [← pow_succ]
        congr 1
        omega
      omega

/-! ### Rejection loop lemmas -/

/-- A successful run of the plain rejection loop yields an in-range value. -/
theorem rangeLoopB_lt (kdf : KDF) (bk : List Nat) (range n : Nat) :
    ∀ count cnt r c2, rangeLoopB kdf bk range n count cnt = (some r, c2) →
      r < range := by
  intro count
  induction count with
  | zero => intro cnt r c2 h; simp [rangeLoopB] at h
  | succ c0 ih =>
    intro cnt r c2 h
    simp only [rangeLoopB] at h
    cases hd : bk_bnrand kdf bk (n : Int) (-1) 0 cnt with
    | mk o cc =>
      rw [hd] at h
      cases o with
      | none => simp at h
      | some r0 =>
        dsimp only at h
        split at h
        · simp at h
        · split at h
          · exact ih _ _ _ h
          · simp only [Prod.mk.injEq, Option.some.injEq] at h
            omega

/-- A successful run of the shifted rejection loop (the `range = 100..._2`
branch) yields an in-range value. -/
theorem rangeLoopA_lt (kdf : KDF) (bk : List Nat) (range n : Nat) :
    ∀ count cnt r c2, rangeLoopA kdf bk range n count cnt = (some r, c2) →
      r < range := by
  intro count
  induction count with
  | zero => intro cnt r c2 h; simp [rangeLoopA] at h
  | succ c0 ih =>
    intro cnt r c2 h
    simp only [rangeLoopA] at h
    cases hd : bk_bnrand kdf bk ((n : Int) + 1) (-1) 0 cnt with
    | mk o cc =>
      rw [hd] at h
      cases o with
      | none => simp at h
      | some r0 =>
        dsimp only at h
        split at h
        · simp at h
        · split at h
          · exact ih _ _ _ h
          · simp only [Prod.mk.injEq, Option.some.injEq] at h
            omega

/-- `bk_bnrand_range` rejects nonpositive ranges without touching any state. -/
theorem bk_bnrand_range_nonpos (kdf : KDF) (bk : List Nat) (range : Int)
    (cnt : Nat) (h : range ≤ 0) : bk_bnrand_range kdf bk range cnt = (none, cnt) := by
  simp [bk_bnrand_range, h]

/-- A successful `bk_bnrand_range` call has a positive range and delivers a
value strictly below it. -/
theorem bk_bnrand_range_lt (kdf : KDF) (bk : List Nat) (range : Int)
    (cnt r c2 : Nat) (h : bk_bnrand_range kdf bk range cnt = (some r, c2)) :
    0 < range ∧ r < range.toNat := by
  simp only [bk_bnrand_range] at h
  split at h
  · simp at h
  · rename_i hpos
    have h0 : 0 < range := by omega
    refine ⟨h0, ?_⟩
    split at h
    · rename_i hn1
      simp only [Prod.mk.injEq, Option.some.injEq] at h
      have : 1 ≤ range.toNat := by omega
      omega
    · split at h
      · exact rangeLoopA_lt _ _ _ _ _ _ _ _ h
      · exact rangeLoopB_lt _ _ _ _ _ _ _ _ h

/-- On the one-element range the sampler returns zero immediately. -/
theorem bk_bnrand_range_one (kdf : KDF) (bk : List Nat) (cnt : Nat) :
    bk_bnrand_range kdf bk 1 cnt = (some 0, cnt) := by
  rfl

/-- The plain rejection loop equals its reference formulation with one fewer
accepting opportunity than its `count`: the final draw of an exhausted run is
always discarded. -/
theorem rangeLoopB_eq_spec (kdf : KDF) (bk : List Nat) (range n : Nat) :
    ∀ count cnt, 1 ≤ count →
      rangeLoopB kdf bk range n count cnt =
        specLoopB kdf bk range n (count - 1) cnt := by
  intro count
  induction count with
  | zero => intro cnt h; omega
  | succ c0 ih =>
    intro cnt _
    simp only [rangeLoopB]
    cases hd : bk_bnrand kdf bk (n : Int) (-1) 0 cnt with
    | mk o c2 =>
      cases o with
      | none =>
        cases c0 with
        | zero => simp [specLoopB, drawB, hd]
        | succ c1 => simp [specLoopB, drawB, hd]
      | some r0 =>
        cases c0 with
        | zero => simp [specLoopB, drawB, hd]
        | succ c1 =>
          simp only [Nat.succ_sub_one, specLoopB, drawB, hd]
          rw [if_neg (by omega : ¬(c1 + 1 = 0))]
          split
          · rw [ih c2 (by omega)]
            rfl
          · rfl

/-- The shifted rejection loop equals its reference formulation, with the
same one-draw discount. -/
theorem rangeLoopA_eq_spec (kdf : KDF) (bk : List Nat) (range n : Nat) :
    ∀ count cnt, 1 ≤ count →
      rangeLoopA kdf bk range n count cnt =
        specLoopA kdf bk range n (count - 1) cnt := by
  intro count
  induction count with
  | zero => intro cnt h; omega
  | succ c0 ih =>
    intro cnt _
    simp only [rangeLoopA]
    cases hd : bk_bnrand kdf bk ((n : Int) + 1) (-1) 0 cnt with
    | mk o c2 =>
      cases o with
      | none =>
        cases c0 with
        | zero => simp [specLoopA, drawA, hd]
        | succ c1 => simp [specLoopA, drawA, hd]
      | some r0 =>
        cases c0 with
        | zero => simp [specLoopA, drawA, hd]
        | succ c1 =>
          simp only [Nat.succ_sub_one, specLoopA, drawA, hd]
          rw [if_neg (by omega : ¬(c1 + 1 = 0))]
          split
          · rw [ih c2 (by omega)]
            rfl
          · rfl

/-! ### Keypair generation lemmas -/

/-- A scalar delivered by the zero-rejection loop is nonzero and came from a
successful `bk_bnrand_range` call. -/
theorem genLoop_some (kdf : KDF) (bk : List Nat) (order : Int) :
    ∀ fuel cnt r c2, genLoop kdf bk order fuel cnt = (some r, c2) →
      r ≠ 0 ∧ ∃ c0, bk_bnrand_range kdf bk order c0 = (some r, c2) := by
  intro fuel
  induction fuel with
  | zero => intro cnt r c2 h; simp [genLoop] at h
  | succ f ih =>
    intro cnt r c2 h
    simp only [genLoop] at h
    cases hd : bk_bnrand_range kdf bk order cnt with
    | mk o cc =>
      rw [hd] at h
      cases o with
      | none => simp at h
      | some r0 =>
        dsimp only at h
        split at h
        · exact ih _ _ _ h
        · simp only [Prod.mk.injEq, Option.some.injEq] at h
          obtain ⟨rfl, rfl⟩ := h
          exact ⟨by assumption, cnt, hd⟩

/-! ### Claim theorems -/

/-- Claim C1: for every fill of length `L ≥ 1` with brainkey material of size
`≥ 16` (whose four salt bytes are nonzero, so that they form the ASCII salt
string, and whose counter window does not wrap the 32-bit counter), the
keystream is produced in 32-byte blocks: the block at index `i` is
PBKDF2-HMAC-SHA-256 with the passphrase `bk[4..]`, the ASCII salt
`"<first 4 brainkey bytes>.opmsg-brainkey-v1.<cnt+i as 8 lowercase hex
digits>"`, 10000 iterations and 32 output bytes; blocks use consecutive
counter values, the last block is truncated to the remaining length, and a
successful fill advances the counter by exactly `⌈L/32⌉`. -/
theorem claim_C1 (kdf : KDF) (bk : List Nat) (L cnt : Nat)
    (hL : 1 ≤ L) (h16 : 16 ≤ bk.length)
    (hascii : ∀ b ∈ bk.take 4, b ≠ 0)
    (hnw : cnt + (L + 31) / 32 < 2 ^ 32)
    (out : List Nat) (c2 : Nat)
    (h : bk_RAND_bytes kdf bk L cnt = (some out, c2)) :
    c2 = cnt + (L + 31) / 32 ∧ out.length = L ∧
    ∀ i < (L + 31) / 32, ∃ blk,
      kdf.run (bk.drop 4) (bk.take 4 ++ 46 :: initSaltBytes ++ 46 :: hex8 (cnt + i))
        10000 32 = some blk ∧
      (out.drop (32 * i)).take 32 = blk.take (L - 32 * i) := by
  have htw : List.takeWhile (fun b => b != 0) (bk.take 4) = bk.take 4 := by
    rw [List.takeWhile_eq_self_iff]
    intro x hx
    simpa using hascii x hx
  have hsalt : ∀ v, saltString (bk.take 4) v =
      bk.take 4 ++ 46 :: initSaltBytes ++ 46 :: hex8 v := by
    intro v
    unfold saltString
    rw [htw]
  unfold bk_RAND_bytes at h
  rw [if_neg (by omega), if_neg (by omega)] at h
  have hlen := (fillLoop_some kdf (bk.drop 4) (bk.take 4) L L cnt out c2
    (Nat.le_refl _) h).1
  obtain ⟨hc2, hblocks⟩ := fillLoop_blocks kdf (bk.drop 4) (bk.take 4) L L cnt out c2
    hL (Nat.le_refl _) hnw h
  refine ⟨hc2, hlen, fun i hi => ?_⟩
  obtain ⟨blk, hb, he⟩ := hblocks i hi
  exact ⟨blk, by rwa [hsalt] at hb, he⟩

/-- Claim C1 witness: a 33-byte fill from counter 0 with the all-zero
derivation primitive needs two blocks and advances the counter to 2. -/
theorem claim_C1_witness :
    bk_RAND_bytes kdfZero bkW 33 0 = (some (List.replicate 33 0), 2) ∧
    (2 = 0 + (33 + 31) / 32 ∧ (List.replicate 33 (0 : Nat)).length = 33 ∧
     ∀ i < (33 + 31) / 32, ∃ blk,
       kdfZero.run (bkW.drop 4)
         (bkW.take 4 ++ 46 :: initSaltBytes ++ 46 :: hex8 (0 + i)) 10000 32 =
         some blk ∧
       ((List.replicate 33 (0 : Nat)).drop (32 * i)).take 32 =
         blk.take (33 - 32 * i)) := by
  have h : bk_RAND_bytes kdfZero bkW 33 0 = (some (List.replicate 33 0), 2) := by
    decide
  exact ⟨h, claim_C1 kdfZero bkW 33 0 (by decide) (by decide) (by decide)
    (by decide) _ _ h⟩

/-- Claim C2: the range sampler fails on every nonpositive range and never
touches the counter there; every successful call returns `0 ≤ r < range`;
and the one-element range returns exactly 0. -/
theorem claim_C2 (kdf : KDF) (bk : List Nat) (range : Int) (cnt : Nat) :
    (range ≤ 0 → bk_bnrand_range kdf bk range cnt = (none, cnt)) ∧
    (∀ r c2, bk_bnrand_range kdf bk range cnt = (some r, c2) →
      0 ≤ (r : Int) ∧ (r : Int) < range) ∧
    (range = 1 → bk_bnrand_range kdf bk range cnt = (some 0, cnt)) := by
  refine ⟨fun h => bk_bnrand_range_nonpos kdf bk range cnt h, ?_, ?_⟩
  · intro r c2 h
    obtain ⟨hpos, hlt⟩ := bk_bnrand_range_lt kdf bk range cnt r c2 h
    exact ⟨Int.natCast_nonneg r, by omega⟩
  · intro h
    subst h
    exact bk_bnrand_range_one kdf bk cnt

/-- Claim C2 witness: a negative range fails, range 1 returns 0, and the
successful call on range 3 is in range. -/
theorem claim_C2_witness :
    bk_bnrand_range kdfZero bkW (-5) 7 = (none, 7) ∧
    bk_bnrand_range kdfZero bkW 1 7 = (some 0, 7) ∧
    (0 ≤ ((0 : Nat) : Int) ∧ ((0 : Nat) : Int) < 3) :=
  ⟨(claim_C2 kdfZero bkW (-5) 7).1 (by decide),
   (claim_C2 kdfZero bkW 1 7).2.2 rfl,
   (claim_C2 kdfZero bkW 3 0).2.1 0 1 (by decide)⟩

/-- Claim C3: for `bits ≥ 1`, a successful `bk_bnrand` result (after the
unconditional mask on the most significant byte) is strictly below
`2^bits`; under `NONZERO_TOP_BIT` (`top = 0`) or `TWO_TOP_BITS` (`top > 0`)
it is at least `2^(bits-1)`, i.e. its bit length is exactly `bits` with the
top bit set, and under `TWO_TOP_BITS` it is at least `3·2^(bits-2)`, i.e.
the two top bits are set. -/
theorem claim_C3 (kdf : KDF) (bk : List Nat) (nb : Nat) (top bottom : Int)
    (cnt v c2 : Nat) (h1 : 1 ≤ nb)
    (h : bk_bnrand kdf bk (nb : Int) top bottom cnt = (some v, c2)) :
    v < 2 ^ nb ∧
    ((top = 0 ∨ 0 < top) → 2 ^ (nb - 1) ≤ v) ∧
    (0 < top → 3 * 2 ^ (nb - 2) ≤ v) := by
  obtain ⟨hhi, h0, h2⟩ := bk_bnrand_bounds kdf bk nb top bottom cnt v c2 h1 h
  refine ⟨hhi, fun hc => ?_, fun ht => (h2 ht).2⟩
  rcases hc with hc | hc
  · exact h0 hc
  · exact (h2 hc).1

/-- Claim C3 witness: a 9-bit two-top-bits sample from the all-zero keystream
is `0b110000000 = 384`, with bit length exactly 9 and both top bits set. -/
theorem claim_C3_witness :
    bk_bnrand kdfZero bkW 9 1 0 0 = (some 384, 1) ∧
    (384 < 2 ^ 9 ∧ (((1 : Int) = 0 ∨ 0 < (1 : Int)) → 2 ^ (9 - 1) ≤ 384) ∧
      (0 < (1 : Int) → 3 * 2 ^ (9 - 2) ≤ 384)) := by
  have h : bk_bnrand kdfZero bkW ((9 : Nat) : Int) 1 0 0 = (some 384, 1) := by
    decide
  exact ⟨h, claim_C3 kdfZero bkW 9 1 0 0 384 1 (by decide) h⟩

/-- Claim C4 counterexample: with `range = 3` each 2-bit draw consumes one
keystream block, so the `k`-th draw of the loop uses counter `k - 1`.  Under
`kdfCtr` the draws at counters 0..98 all yield 3 (rejected) and the 100th
draw, at counter 99, yields 0, an accepted in-range value — yet
`bk_bnrand_range` fails, because `if (!--count) return 0;` fires after the
100th draw before its acceptance is ever tested.  This refutes the claim
that an accepted draw among the first 100 always makes the call succeed. -/
theorem claim_C4_counterexample :
    bk_bnrand_range kdfCtr bkW 3 0 = (none, 100) ∧
    bk_bnrand kdfCtr bkW 2 (-1) 0 99 = (some 0, 100) ∧ (0 : Nat) < 3 := by
  set_option maxRecDepth 10000 in refine ⟨by decide, by decide, by decide⟩

/-- Claim C4 (amended): for every `range > 0` of bit length at least 2, each
rejection loop of `bk_bnrand_range` performs at most 100 draws, and succeeds
exactly when a draw among the first 99 is accepted (after at most two
subtractions of `range` in the top-zeros branch), returning the first such
value; if the first 99 draws are all rejected, a 100th draw is still made
(advancing the keystream) and then discarded — the call signals failure even
when that final draw is in range.  This is stated as equality with the
reference loops `specLoopA`/`specLoopB`, whose recursion depth 99 bounds the
accepting draws and whose base case performs the one discarded draw. -/
theorem claim_C4 (kdf : KDF) (bk : List Nat) (range : Int) (cnt : Nat)
    (h0 : 0 < range) (h2 : 2 ≤ BN_num_bits range.toNat) :
    bk_bnrand_range kdf bk range cnt =
      if (!(range.toNat).testBit (BN_num_bits range.toNat - 2) &&
          !(range.toNat).testBit (BN_num_bits range.toNat - 3)) = true
      then specLoopA kdf bk range.toNat (BN_num_bits range.toNat) 99 cnt
      else specLoopB kdf bk range.toNat (BN_num_bits range.toNat) 99 cnt := by
  simp only [bk_bnrand_range]
  rw [if_neg (by omega : ¬range ≤ 0), if_neg (by omega : ¬BN_num_bits range.toNat = 1)]
  split
  · have := rangeLoopA_eq_spec kdf bk range.toNat (BN_num_bits range.toNat)
      100 cnt (by omega)
    simpa using this
  · have := rangeLoopB_eq_spec kdf bk range.toNat (BN_num_bits range.toNat)
      100 cnt (by omega)
    simpa using this

/-- Claim C4 witness: the amended equality instantiated on range 3. -/
theorem claim_C4_witness :
    (0 : Int) < 3 ∧ 2 ≤ BN_num_bits (3 : Int).toNat ∧
    bk_bnrand_range kdfOne bkW 3 5 =
      (if (!((3 : Int).toNat).testBit (BN_num_bits (3 : Int).toNat - 2) &&
          !((3 : Int).toNat).testBit (BN_num_bits (3 : Int).toNat - 3)) = true
      then specLoopA kdfOne bkW (3 : Int).toNat (BN_num_bits (3 : Int).toNat) 99 5
      else specLoopB kdfOne bkW (3 : Int).toNat (BN_num_bits (3 : Int).toNat) 99 5) :=
  ⟨by decide, by decide, claim_C4 kdfOne bkW 3 5 (by decide) (by decide)⟩

/-- Claim C5 counterexample: `bk_bnrand` with `bits = 1` and
`top = 0` (the `NONZERO_TOP_BIT` policy, OpenSSL's `BN_RAND_TOP_ONE`) does
not signal an error: the guard at line 102 only rejects `bits == 1` when
`top > 0`, so the call proceeds, forces the single bit and returns the value
1 — contradicting the claim that it fails without returning a value. -/
theorem claim_C5_counterexample :
    bk_bnrand kdfZero bkW 1 0 0 0 = (some 1, 1) := by decide

/-- Claim C5 (amended): `bk_bnrand` with `bits = 1` rejects only the
`TWO_TOP_BITS` policy (`top > 0`), leaving all state unchanged; with
`NONZERO_TOP_BIT` (`top = 0`) the call is accepted and, whenever the
keystream delivers its byte, returns exactly the value 1. -/
theorem claim_C5 (kdf : KDF) (bk : List Nat) (top bottom : Int) (cnt : Nat)
    (htop : 0 < top) :
    bk_bnrand kdf bk 1 top bottom cnt = (none, cnt) ∧
    ∀ buf c2, bk_RAND_bytes kdf bk 1 cnt = (some buf, c2) →
      bk_bnrand kdf bk 1 0 bottom cnt = (some 1, c2) := by
  constructor
  · unfold bk_bnrand
    rw [if_neg (by omega : ¬(1 : Int) = 0),
      if_pos (Or.inr ⟨rfl, htop⟩ : (1 : Int) < 0 ∨ ((1 : Int) = 1 ∧ 0 < top))]
  · intro buf c2 hrb
    obtain ⟨h16, hpos, hlen, hbyte⟩ := bk_RAND_bytes_some _ _ _ _ _ _ hrb
    unfold bk_bnrand
    rw [if_neg (by omega : ¬(1 : Int) = 0),
      if_neg (by omega : ¬((1 : Int) < 0 ∨ ((1 : Int) = 1 ∧ (0 : Int) < 0)))]
    dsimp only
    rw [show (Int.toNat 1 + 7) / 8 = 1 from rfl,
      show (Int.toNat 1 - 1) % 8 = 0 from rfl, hrb]
    cases buf with
    | nil => simp at hlen
    | cons b0 rest =>
      cases rest with
      | cons b1 rest2 => simp at hlen
      | nil =>
        have hsh : shapeTop 0 0 [b0] = some [(b0 ||| 1 <<< 0) % 2 ^ (0 + 1)] := rfl
        have hval : (b0 ||| 1 <<< 0) % 2 ^ (0 + 1) = 1 := by
          have he : (b0 ||| 1 <<< 0) % 2 ^ (0 + 1) = b0 % 2 ^ 1 ||| 1 % 2 ^ 1 := by
            rw [show (1 : Nat) <<< 0 = 1 from rfl, show (0 : Nat) + 1 = 1 from rfl,
              or_mod_two_pow]
          have h2 : b0 % 2 ^ 1 = 0 ∨ b0 % 2 ^ 1 = 1 := by
            have : b0 % 2 < 2 := Nat.mod_lt _ (by omega)
            simp only [pow_one]
            omega
          rcases h2 with h2 | h2 <;> rw [he, h2] <;> rfl
        dsimp only
        rw [hsh, hval]
        dsimp only
        split
        · rfl
        · rfl

/-- Claim C5 witness: `bits = 1` with `TWO_TOP_BITS` fails, while
`NONZERO_TOP_BIT` returns 1 under the all-zero keystream. -/
theorem claim_C5_witness :
    bk_bnrand kdfZero bkW 1 2 0 0 = (none, 0) ∧
    bk_bnrand kdfZero bkW 1 0 0 0 = (some 1, 1) := by
  have h := claim_C5 kdfZero bkW 2 0 0 (by decide)
  exact ⟨h.1, h.2 (List.replicate 1 0) 1 (by decide)⟩

/-- Case analysis of a successful deterministic `EC_KEY_generate_key` run:
every external step succeeded and the result installs the sampled scalar and
the multiplied point. -/
theorem generate_ok (env : ECEnv) (kdf : KDF) (bk : List Nat) (fuel : Nat)
    (key : ECKey) (cnt : Nat) (h16 : 16 ≤ bk.length)
    (hok : (EC_KEY_generate_key env kdf bk fuel key cnt).ok = true) :
    ∃ order p q c2, env.orderRes = some order ∧
      genLoop kdf bk order fuel cnt = (some p, c2) ∧
      env.pointMul p = some q ∧
      EC_KEY_generate_key env kdf bk fuel key cnt = ⟨true, ⟨some p, some q⟩, c2, 0⟩ := by
  have hlt : ¬bk.length < 16 := by omega
  cases ha : env.allocOK with
  | false => simp [EC_KEY_generate_key, hlt, ha] at hok
  | true =>
    cases ho : env.orderRes with
    | none => simp [EC_KEY_generate_key, hlt, ha, ho] at hok
    | some order =>
      cases hg : genLoop kdf bk order fuel cnt with
      | mk og cg =>
        cases og with
        | none => simp [EC_KEY_generate_key, hlt, ha, ho, hg] at hok
        | some p =>
          cases hm : env.pointMul p with
          | none => simp [EC_KEY_generate_key, hlt, ha, ho, hg, hm] at hok
          | some q =>
            cases hsp : env.setPrivOK p with
            | false => simp [EC_KEY_generate_key, hlt, ha, ho, hg, hm, hsp] at hok
            | true =>
              cases hsq : env.setPubOK q with
              | false =>
                simp [EC_KEY_generate_key, hlt, ha, ho, hg, hm, hsp, hsq] at hok
              | true =>
                refine ⟨order, p, q, cg, rfl, hg, hm, ?_⟩
                simp [EC_KEY_generate_key, hlt, ha, ho, hg, hm, hsp, hsq]

/-- Case analysis of a failed deterministic `EC_KEY_generate_key` run: the
key object is unchanged, except when the public-key setter fails after the
private-key setter succeeded, in which case exactly the private scalar has
been updated. -/
theorem generate_fail (env : ECEnv) (kdf : KDF) (bk : List Nat) (fuel : Nat)
    (key : ECKey) (cnt : Nat) (h16 : 16 ≤ bk.length)
    (hfail : (EC_KEY_generate_key env kdf bk fuel key cnt).ok = false) :
    (EC_KEY_generate_key env kdf bk fuel key cnt).key = key ∨
    ∃ p q, env.pointMul p = some q ∧ env.setPrivOK p = true ∧
      env.setPubOK q = false ∧
      (EC_KEY_generate_key env kdf bk fuel key cnt).key = { key with priv := some p } := by
  have hlt : ¬bk.length < 16 := by omega
  cases ha : env.allocOK with
  | false => exact Or.inl (by simp [EC_KEY_generate_key, hlt, ha])
  | true =>
    cases ho : env.orderRes with
    | none => exact Or.inl (by simp [EC_KEY_generate_key, hlt, ha, ho])
    | some order =>
      cases hg : genLoop kdf bk order fuel cnt with
      | mk og cg =>
        cases og with
        | none => exact Or.inl (by simp [EC_KEY_generate_key, hlt, ha, ho, hg])
        | some p =>
          cases hm : env.pointMul p with
          | none => exact Or.inl (by simp [EC_KEY_generate_key, hlt, ha, ho, hg, hm])
          | some q =>
            cases hsp : env.setPrivOK p with
            | false =>
              exact Or.inl (by simp [EC_KEY_generate_key, hlt, ha, ho, hg, hm, hsp])
            | true =>
              cases hsq : env.setPubOK q with
              | false =>
                exact Or.inr ⟨p, q, hm, hsp, hsq,
                  by simp [EC_KEY_generate_key, hlt, ha, ho, hg, hm, hsp, hsq]⟩
              | true =>
                simp [EC_KEY_generate_key, hlt, ha, ho, hg, hm, hsp, hsq] at hfail

/-- Claim C6: every keypair successfully returned by the deterministic
generator (brainkey of size ≥ 16) carries a private scalar in `[1, order)`:
the zero-rejection loop never lets a zero scalar through, and range sampling
keeps the scalar below the group order. -/
theorem claim_C6 (env : ECEnv) (kdf : KDF) (bk : List Nat) (fuel : Nat)
    (key : ECKey) (cnt : Nat) (h16 : 16 ≤ bk.length)
    (hok : (EC_KEY_generate_key env kdf bk fuel key cnt).ok = true) :
    ∃ order p, env.orderRes = some order ∧
      (EC_KEY_generate_key env kdf bk fuel key cnt).key.priv = some p ∧
      1 ≤ p ∧ (p : Int) < order := by
  obtain ⟨order, p, q, c2, ho, hg, hm, heq⟩ :=
    generate_ok env kdf bk fuel key cnt h16 hok
  obtain ⟨hp0, c0, hr⟩ := genLoop_some kdf bk order fuel cnt p c2 hg
  obtain ⟨hpos, hlt⟩ := bk_bnrand_range_lt kdf bk order c0 p c2 hr
  rw [heq]
  exact ⟨order, p, ho, rfl, by omega, by omega⟩

/-- Claim C6 witness: a full successful run under `envOK` and the all-ones
keystream yields the scalar 1 with group order 3. -/
theorem claim_C6_witness :
    (16 ≤ bkW.length) ∧
    ∃ order p, envOK.orderRes = some order ∧
      (EC_KEY_generate_key envOK kdfOne bkW 5 ⟨none, none⟩ 0).key.priv = some p ∧
      1 ≤ p ∧ (p : Int) < order :=
  ⟨by decide, claim_C6 envOK kdfOne bkW 5 ⟨none, none⟩ 0 (by decide) (by decide)⟩

/-- Claim C7 counterexample: with every step succeeding except the final
public-key setter, the failing call leaves the key object changed — the
private scalar has been installed without its public point, so a failing
deterministic generate is observable as a partial update, contradicting the
claim that the key object is always left unchanged on failure. -/
theorem claim_C7_counterexample :
    (EC_KEY_generate_key envPubFail kdfOne bkW 5 ⟨none, none⟩ 0).ok = false ∧
    (EC_KEY_generate_key envPubFail kdfOne bkW 5 ⟨none, none⟩ 0).key ≠
      (⟨none, none⟩ : ECKey) := by
  exact ⟨by decide, by decide⟩

/-- Claim C7 (amended): when the deterministic generate fails, the public
point of the caller-visible key object is never modified, and the key object
is left entirely unchanged except in one case: if the public-key setter
fails after the private-key setter succeeded, the private scalar (and only
it) has been updated. -/
theorem claim_C7 (env : ECEnv) (kdf : KDF) (bk : List Nat) (fuel : Nat)
    (key : ECKey) (cnt : Nat) (h16 : 16 ≤ bk.length)
    (hfail : (EC_KEY_generate_key env kdf bk fuel key cnt).ok = false) :
    (EC_KEY_generate_key env kdf bk fuel key cnt).key.pub = key.pub ∧
    ((EC_KEY_generate_key env kdf bk fuel key cnt).key = key ∨
      ∃ p q, env.pointMul p = some q ∧ env.setPrivOK p = true ∧
        env.setPubOK q = false ∧
        (EC_KEY_generate_key env kdf bk fuel key cnt).key =
          { key with priv := some p }) := by
  have h := generate_fail env kdf bk fuel key cnt h16 hfail
  refine ⟨?_, h⟩
  rcases h with h | ⟨p, q, _, _, _, h⟩ <;> rw [h]

/-- Claim C7 witness: the amended statement instantiated on the environment
whose public-key setter fails. -/
theorem claim_C7_witness :
    (EC_KEY_generate_key envPubFail kdfOne bkW 5 ⟨none, none⟩ 0).key.pub =
      (⟨none, none⟩ : ECKey).pub ∧
    ((EC_KEY_generate_key envPubFail kdfOne bkW 5 ⟨none, none⟩ 0).key =
        (⟨none, none⟩ : ECKey) ∨
      ∃ p q, envPubFail.pointMul p = some q ∧ envPubFail.setPrivOK p = true ∧
        envPubFail.setPubOK q = false ∧
        (EC_KEY_generate_key envPubFail kdfOne bkW 5 ⟨none, none⟩ 0).key =
          { (⟨none, none⟩ : ECKey) with priv := some p }) :=
  claim_C7 envPubFail kdfOne bkW 5 ⟨none, none⟩ 0 (by decide) (by decide)

/-- Claim C8: with brainkey material shorter than 16 bytes, generate
delegates entirely to the external true-random generator, invoking it
exactly once, and executes none of the deterministic path: the keystream
counter is untouched and the call's outcome is exactly the fallback's. -/
theorem claim_C8 (env : ECEnv) (kdf : KDF) (bk : List Nat) (fuel : Nat)
    (key : ECKey) (cnt : Nat) (hshort : bk.length < 16) :
    (EC_KEY_generate_key env kdf bk fuel key cnt).truegenCalls = 1 ∧
    (EC_KEY_generate_key env kdf bk fuel key cnt).cnt = cnt ∧
    (EC_KEY_generate_key env kdf bk fuel key cnt).ok = (env.truegen key).isSome ∧
    (EC_KEY_generate_key env kdf bk fuel key cnt).key = (env.truegen key).getD key := by
  unfold EC_KEY_generate_key
  rw [if_pos hshort]
  cases env.truegen key <;> simp

/-- Claim C8 witness: the 3-byte brainkey takes the fallback exactly once
without advancing the counter. -/
theorem claim_C8_witness :
    (EC_KEY_generate_key envOK kdfZero bkShort 5 ⟨none, none⟩ 7).truegenCalls = 1 ∧
    (EC_KEY_generate_key envOK kdfZero bkShort 5 ⟨none, none⟩ 7).cnt = 7 ∧
    (EC_KEY_generate_key envOK kdfZero bkShort 5 ⟨none, none⟩ 7).ok =
      (envOK.truegen ⟨none, none⟩).isSome ∧
    (EC_KEY_generate_key envOK kdfZero bkShort 5 ⟨none, none⟩ 7).key =
      (envOK.truegen ⟨none, none⟩).getD ⟨none, none⟩ :=
  claim_C8 envOK kdfZero bkShort 5 ⟨none, none⟩ 7 (by decide)

/-- Claim C9: whenever `bk_bnrand` (for legal `bits ≥ 1`, excluding the
rejected `bits = 1` with `TWO_TOP_BITS`) obtains a keystream buffer, the
`TWO_TOP_BITS` branch with top-bit index 0 can only be reached with
`bits ≥ 9`, hence a buffer of at least two bytes, so the write to byte 1 is
in bounds: the shaping step never takes its out-of-range branch. -/
theorem claim_C9 (kdf : KDF) (bk : List Nat) (bits top : Int) (cnt : Nat)
    (buf : List Nat) (c2 : Nat) (h1 : 1 ≤ bits)
    (hnot : ¬(bits = 1 ∧ 0 < top))
    (hrb : bk_RAND_bytes kdf bk ((bits.toNat + 7) / 8) cnt = (some buf, c2)) :
    (0 < top → (bits.toNat - 1) % 8 = 0 → 9 ≤ bits.toNat ∧ 2 ≤ buf.length) ∧
    shapeTop top ((bits.toNat - 1) % 8) buf ≠ none := by
  obtain ⟨h16, hpos, hlen, hbyte⟩ := bk_RAND_bytes_some _ _ _ _ _ _ hrb
  have hnb : 1 ≤ bits.toNat := by omega
  have h9 : 0 < top → (bits.toNat - 1) % 8 = 0 → 9 ≤ bits.toNat := by
    intro ht hb
    have hne : bits ≠ 1 := fun he => hnot ⟨he, ht⟩
    have : bits.toNat ≠ 1 := by omega
    omega
  refine ⟨fun ht hb => ⟨h9 ht hb, by have := h9 ht hb; omega⟩, ?_⟩
  cases buf with
  | nil =>
    simp only [List.length_nil] at hlen
    omega
  | cons b0 rest =>
    simp only [shapeTop]
    by_cases ht : 0 < top
    · rw [if_pos ht]
      by_cases hb : (bits.toNat - 1) % 8 = 0
      · rw [if_pos hb]
        cases rest with
        | nil =>
          exfalso
          have := h9 ht hb
          simp only [List.length_cons, List.length_nil] at hlen
          omega
        | cons b1 rest2 => simp
      · rw [if_neg hb]
        simp
    · rw [if_neg ht]
      split <;> simp

/-- Claim C9 witness: a 9-bit request obtains a two-byte buffer, on which
the two-top-bits shaping is total. -/
theorem claim_C9_witness :
    ((0 : Int) < 1 → ((9 : Int).toNat - 1) % 8 = 0 →
      9 ≤ (9 : Int).toNat ∧ 2 ≤ (List.replicate 2 (0 : Nat)).length) ∧
    shapeTop 1 (((9 : Int).toNat - 1) % 8) (List.replicate 2 (0 : Nat)) ≠ none :=
  claim_C9 kdfZero bkW 9 1 0 (List.replicate 2 0) 1 (by decide) (by decide)
    (by decide)

/-- Claim C10: the keystream fill is not atomic with respect to the counter
on error: if the derivation primitive succeeds for the first `k` blocks and
fails on block `k` (a block the fill actually requests), the call reports
failure with the counter advanced past every completed block and past the
failed block itself. -/
theorem claim_C10 (kdf : KDF) (bk : List Nat) (L cnt k : Nat)
    (h16 : 16 ≤ bk.length) (hL : 1 ≤ L) (hk : k < (L + 31) / 32)
    (hw : cnt + k + 1 < 2 ^ 32)
    (hok : ∀ j < k, ∃ blk,
      kdf.run (bk.drop 4) (saltString (bk.take 4) (cnt + j)) 10000 32 = some blk)
    (hfail : kdf.run (bk.drop 4) (saltString (bk.take 4) (cnt + k)) 10000 32 = none) :
    bk_RAND_bytes kdf bk L cnt = (none, cnt + k + 1) := by
  unfold bk_RAND_bytes
  rw [if_neg (by omega), if_neg (by omega)]
  exact fillLoop_fail kdf (bk.drop 4) (bk.take 4) k L L cnt hL (Nat.le_refl _)
    hk hw hok hfail

/-- Claim C10 witness: a 40-byte fill whose second block's derivation fails
returns failure with the counter advanced to 2. -/
theorem claim_C10_witness :
    bk_RAND_bytes kdfFailAt1 bkW 40 0 = (none, 0 + 1 + 1) :=
  claim_C10 kdfFailAt1 bkW 40 0 1 (by decide) (by decide) (by decide) (by decide)
    (fun j hj => by
      have hj0 : j = 0 := by omega
      subst hj0
      exact ⟨List.replicate 32 0, by decide⟩)
    (by decide)

end Brainkey
